import Mathlib

/-!
Verification of the `image-charts` Rust client library (`src/lib.rs`).

Rust `String`s are modelled as their UTF-8 byte sequences (`List Nat`, each
element < 256).  This is faithful: Rust's `String` ordering (`Ord`) is
byte-lexicographic on the UTF-8 representation, `urlencoding`/`hex`/`hmac`
operate on bytes, and `format!` concatenation is byte concatenation.
ASCII literals from the source are written with the `ascii` helper.
-/

namespace ImageChartsRust

/-- UTF-8 byte strings.  All source-code string literals are ASCII, so their
byte sequence is the list of code points. -/
abbrev Bytes := List Nat

/-- Byte sequence of an ASCII string literal (code points = UTF-8 bytes). -/
def ascii (s : String) : Bytes := s.data.map Char.toNat

/-- Byte-lexicographic order on byte strings; models Rust's
`String::cmp` (which compares the underlying UTF-8 bytes). -/
def bytesLe : Bytes → Bytes → Bool
  | [], _ => true
  | _ :: _, [] => false
  | a :: as, b :: bs => if a < b then true else if a = b then bytesLe as bs else false

/-- Unreserved bytes of the `urlencoding` crate: ASCII alphanumerics and
`-`, `_`, `.`, `~` are emitted verbatim; everything else is escaped. -/
def isUrlUnreserved (b : Nat) : Bool :=
  (48 ≤ b && b ≤ 57) || (65 ≤ b && b ≤ 90) || (97 ≤ b && b ≤ 122) ||
  b = 45 || b = 95 || b = 46 || b = 126

/-- Uppercase hex digit (the `urlencoding` crate escapes with `%XX`,
uppercase). -/
def hexDigitUpper (n : Nat) : Nat := if n < 10 then 48 + n else 55 + n

/-- Lowercase hex digit (the `hex` crate encodes lowercase). -/
def hexDigitLower (n : Nat) : Nat := if n < 10 then 48 + n else 87 + n

/-- `urlencoding::encode` on the UTF-8 bytes of a value. -/
def urlencode (v : Bytes) : Bytes :=
  v.flatMap fun b =>
    if isUrlUnreserved b then [b] else [37, hexDigitUpper (b / 16), hexDigitUpper (b % 16)]

/-- `hex::encode`: lowercase hex of a byte string. -/
def hexEncode (bs : Bytes) : Bytes :=
  bs.flatMap fun b => [hexDigitLower (b / 16), hexDigitLower (b % 16)]

/-- Value of a hex digit byte, accepting both cases (a standard
percent-decoder). -/
def hexVal (c : Nat) : Option Nat :=
  if 48 ≤ c ∧ c ≤ 57 then some (c - 48)
  else if 65 ≤ c ∧ c ≤ 70 then some (c - 55)
  else if 97 ≤ c ∧ c ≤ 102 then some (c - 87)
  else none

/-- One percent-escape: two hex digits after a `%`. -/
def decodePct : Bytes → Option (Nat × Bytes)
  | a :: b :: rest2 =>
    (match hexVal a, hexVal b with
     | some x, some y => some (16 * x + y, rest2)
     | _, _ => none)
  | _ => none

/-- A standard percent-decoder on bytes (fuel-indexed for structural
recursion): `%XY` with hex digits decodes to a byte, everything else
passes through. -/
def urldecodeF : Nat → Bytes → Bytes
  | 0, l => l
  | _, [] => []
  | fuel + 1, c :: rest =>
    if c = 37 then
      match decodePct rest with
      | some (v, rest2) => v :: urldecodeF fuel rest2
      | none => c :: urldecodeF fuel rest
    else c :: urldecodeF fuel rest

/-- A standard percent-decoder on bytes. -/
def urldecode (l : Bytes) : Bytes := urldecodeF l.length l

/-- `Vec::join(sep)` from Rust: concatenate with a separator between
elements. -/
def joinSep (sep : Bytes) : List Bytes → Bytes
  | [] => []
  | [x] => x
  | x :: y :: xs => x ++ sep ++ joinSep sep (y :: xs)

/-! ### SHA-256 and HMAC (models of the `sha2` and `hmac` crates) -/

/-- Truncate to a 32-bit word. -/
def w32 (n : Nat) : Nat := n % 4294967296

/-- Right-rotation of a 32-bit word. -/
def rotr (n x : Nat) : Nat := w32 ((x >>> n) ||| (x <<< (32 - n)))

/-- SHA-256 round constants. -/
def sha256K : List Nat :=
  [1116352408, 1899447441, 3049323471, 3921009573,
   961987163, 1508970993, 2453635748, 2870763221,
   3624381080, 310598401, 607225278, 1426881987,
   1925078388, 2162078206, 2614888103, 3248222580,
   3835390401, 4022224774, 264347078, 604807628,
   770255983, 1249150122, 1555081692, 1996064986,
   2554220882, 2821834349, 2952996808, 3210313671,
   3336571891, 3584528711, 113926993, 338241895,
   666307205, 773529912, 1294757372, 1396182291,
   1695183700, 1986661051, 2177026350, 2456956037,
   2730485921, 2820302411, 3259730800, 3345764771,
   3516065817, 3600352804, 4094571909, 275423344,
   430227734, 506948616, 659060556, 883997877,
   958139571, 1322822218, 1537002063, 1747873779,
   1955562222, 2024104815, 2227730452, 2361852424,
   2428436474, 2756734187, 3204031479, 3329325298]

/-- SHA-256 initial hash state. -/
def sha256H0 : List Nat :=
  [1779033703, 3144134277, 1013904242, 2773480762,
   1359893119, 2600822924, 528734635, 1541459225]

/-- Big-endian 32-bit word from four bytes. -/
def wordOfBytesBE (bs : Bytes) : Nat := bs.foldl (fun acc b => acc * 256 + b) 0

/-- Big-endian bytes of a 32-bit word. -/
def bytesOfWordBE (n : Nat) : Bytes :=
  [n / 16777216 % 256, n / 65536 % 256, n / 256 % 256, n % 256]

/-- Big-endian bytes of a 64-bit length field. -/
def bytesOfLen64BE (n : Nat) : Bytes :=
  (List.range 8).map fun i => n >>> (8 * (7 - i)) % 256

/-- SHA-256 padding: `0x80`, zeros to 56 mod 64, then the bit length. -/
def sha256Pad (msg : Bytes) : Bytes :=
  let L := msg.length
  let z := (56 + 64 - (L + 1) % 64) % 64
  msg ++ [128] ++ List.replicate z 0 ++ bytesOfLen64BE (8 * L)

/-- Split into 64-byte blocks (fuel-based so the kernel can evaluate it). -/
def toBlocksF : Nat → Bytes → List Bytes
  | 0, _ => []
  | _, [] => []
  | fuel + 1, b :: rest => ((b :: rest).take 64) :: toBlocksF fuel ((b :: rest).drop 64)

def toBlocks (l : Bytes) : List Bytes := toBlocksF l.length l

/-- Message-schedule extension from the first 16 words to 64 words. -/
def sha256Schedule (w16 : List Nat) : List Nat :=
  (List.range 48).foldl
    (fun acc _ =>
      let n := acc.length
      let x15 := acc.getD (n - 15) 0
      let x2 := acc.getD (n - 2) 0
      let s0 := (rotr 7 x15) ^^^ (rotr 18 x15) ^^^ (x15 >>> 3)
      let s1 := (rotr 17 x2) ^^^ (rotr 19 x2) ^^^ (x2 >>> 10)
      acc ++ [w32 (acc.getD (n - 16) 0 + s0 + acc.getD (n - 7) 0 + s1)])
    w16

/-- One SHA-256 compression round on the 8-register state. -/
def sha256Round (w : List Nat) (st : List Nat) (i : Nat) : List Nat :=
  let a := st.getD 0 0
  let b := st.getD 1 0
  let c := st.getD 2 0
  let d := st.getD 3 0
  let e := st.getD 4 0
  let f := st.getD 5 0
  let g := st.getD 6 0
  let h := st.getD 7 0
  let s1 := (rotr 6 e) ^^^ (rotr 11 e) ^^^ (rotr 25 e)
  let ch := (e &&& f) ^^^ ((e ^^^ 0xffffffff) &&& g)
  let temp1 := w32 (h + s1 + ch + sha256K.getD i 0 + w.getD i 0)
  let s0 := (rotr 2 a) ^^^ (rotr 13 a) ^^^ (rotr 22 a)
  let maj := (a &&& b) ^^^ (a &&& c) ^^^ (b &&& c)
  let temp2 := w32 (s0 + maj)
  [w32 (temp1 + temp2), a, b, c, w32 (d + temp1), e, f, g]

/-- Compress one 64-byte block into the hash state. -/
def sha256Compress (h : List Nat) (block : Bytes) : List Nat :=
  let w16 := (List.range 16).map fun i => wordOfBytesBE ((block.drop (4 * i)).take 4)
  let w := sha256Schedule w16
  let st := (List.range 64).foldl (sha256Round w) h
  (List.range 8).map fun i => w32 (h.getD i 0 + st.getD i 0)

/-- SHA-256 of a byte string. -/
def sha256 (msg : Bytes) : Bytes :=
  ((toBlocks (sha256Pad msg)).foldl sha256Compress sha256H0).flatMap bytesOfWordBE

/-- HMAC key normalization: keys longer than the 64-byte block are hashed,
then the key is zero-padded to 64 bytes.  The `hmac` crate performs exactly
this for a key of any length, which is why `new_from_slice` cannot fail. -/
def hmacKeyBlock (key : Bytes) : Bytes :=
  let k0 := if 64 < key.length then sha256 key else key
  k0 ++ List.replicate (64 - k0.length) 0

/-- HMAC-SHA256 finalization from a prepared 64-byte key block. -/
def hmacFinalize (kblock msg : Bytes) : Bytes :=
  sha256 ((kblock.map (· ^^^ 92)) ++ sha256 ((kblock.map (· ^^^ 54)) ++ msg))

/-- HMAC-SHA256 with an arbitrary-length key. -/
def hmacSha256 (key msg : Bytes) : Bytes := hmacFinalize (hmacKeyBlock key) msg

/-! ### Configuration and builder (`ImageChartsConfig`, `ImageCharts`) -/

/-- `ImageChartsConfig` from `src/lib.rs` (strings as UTF-8 bytes, the
timeout in milliseconds). -/
structure ImageChartsConfig where
  protocol : Bytes
  host : Bytes
  port : Nat
  pathname : Bytes
  timeoutMs : Nat
  secret : Option Bytes
  userAgent : Option Bytes
deriving DecidableEq, Repr

/-- `ImageChartsConfig::default()`. -/
def ImageChartsConfig.default : ImageChartsConfig :=
  { protocol := ascii "https", host := ascii "image-charts.com", port := 443,
    pathname := ascii "/chart", timeoutMs := 5000, secret := none, userAgent := none }

/-- `ImageCharts`: a configuration plus the accumulated query parameters.
The Rust field is a `HashMap<String, String>`; we represent it as an
association list whose order is immaterial for the output because `to_url`
sorts the pairs (the public API keeps keys unique). -/
structure ImageCharts where
  config : ImageChartsConfig
  query : List (Bytes × Bytes)
deriving DecidableEq, Repr

namespace ImageCharts

/-- `ImageCharts::with_config`. -/
def with_config (config : ImageChartsConfig) : ImageCharts := { config := config, query := [] }

/-- `ImageCharts::new`. -/
def new : ImageCharts := with_config ImageChartsConfig.default

/-- `ImageCharts::with_secret`. -/
def with_secret (secret : Bytes) : ImageCharts :=
  with_config { ImageChartsConfig.default with secret := some secret }

/-- `HashMap::contains_key`. -/
def containsKey (q : List (Bytes × Bytes)) (k : Bytes) : Bool := q.any fun p => p.1 = k

/-- `HashMap::insert`: overwrite the binding of `k` when present, otherwise
add a new one. -/
def insertQ (q : List (Bytes × Bytes)) (k v : Bytes) : List (Bytes × Bytes) :=
  if containsKey q k then q.map (fun p => if p.1 = k then (k, v) else p) else q ++ [(k, v)]

/-- `ImageCharts::clone_with`: clone the builder and insert one parameter. -/
def clone_with (c : ImageCharts) (key value : Bytes) : ImageCharts :=
  { c with query := insertQ c.query key value }

/-- Setter `cht` (chart type). -/
def cht (c : ImageCharts) (value : Bytes) : ImageCharts := clone_with c (ascii "cht") value

/-- Setter `chd` (chart data). -/
def chd (c : ImageCharts) (value : Bytes) : ImageCharts := clone_with c (ascii "chd") value

/-- Setter `chs` (chart size). -/
def chs (c : ImageCharts) (value : Bytes) : ImageCharts := clone_with c (ascii "chs") value

/-- Setter `chl` (labels). -/
def chl (c : ImageCharts) (value : Bytes) : ImageCharts := clone_with c (ascii "chl") value

/-- Setter `icac` (enterprise account id). -/
def icac (c : ImageCharts) (value : Bytes) : ImageCharts := clone_with c (ascii "icac") value

/-- Setter `ichm` (`src/lib.rs:625`): the reserved signature key is itself
exposed as a public setter. -/
def ichm (c : ImageCharts) (value : Bytes) : ImageCharts := clone_with c (ascii "ichm") value

/-- The parameter keys settable through the public API: one per generated
setter in `src/lib.rs`, all 35 of them. -/
def publicKeys : List Bytes :=
  [ascii "chan", ascii "chbr", ascii "chco", ascii "chd", ascii "chdl",
   ascii "chdlp", ascii "chdls", ascii "chds", ascii "chf", ascii "chg",
   ascii "chl", ascii "chld", ascii "chli", ascii "chlps", ascii "chls",
   ascii "chm", ascii "chma", ascii "choe", ascii "chof", ascii "chs",
   ascii "cht", ascii "chts", ascii "chtt", ascii "chxl", ascii "chxr",
   ascii "chxs", ascii "chxt", ascii "icac", ascii "icff", ascii "icfs",
   ascii "ichm", ascii "iclocale", ascii "icqrb", ascii "icqrf", ascii "icretina"]

/-- `ImageCharts::sign`: HMAC-SHA256 of the query string keyed by the
secret, lowercase hex-encoded. -/
def sign (data secret : Bytes) : Bytes := hexEncode (hmacSha256 secret data)

/-- Ordering of parameter pairs by key only (Rust:
`pairs.sort_by(|a, b| a.0.cmp(b.0))`). -/
def keyLe (a b : Bytes × Bytes) : Prop := bytesLe a.1 b.1 = true

instance : DecidableRel keyLe := fun a b => instDecidableEqBool (bytesLe a.1 b.1) true

/-- The sorted parameter pairs.  Rust's `sort_by` is a stable sort by
byte-lexicographic key order; insertion sort is stable, and on the unique
keys maintained by the public API every stable sort agrees. -/
def sortPairs (q : List (Bytes × Bytes)) : List (Bytes × Bytes) :=
  q.insertionSort keyLe

/-- The pre-signature query string: sorted `name=<urlencoded value>` pairs
joined with `&`. -/
def raw_query_string (q : List (Bytes × Bytes)) : Bytes :=
  joinSep (ascii "&") ((sortPairs q).map fun p => p.1 ++ ascii "=" ++ urlencode p.2)

/-- The query string after the conditional signing step of `to_url`. -/
def signedQuery (c : ImageCharts) : Bytes :=
  let query_string := raw_query_string c.query
  if containsKey c.query (ascii "icac") then
    match c.config.secret with
    | some secret =>
      if secret.isEmpty then query_string
      else query_string ++ ascii "&ichm=" ++ sign query_string secret
    | none => query_string
  else query_string

/-- The port segment: empty for the default (protocol, port) combinations,
otherwise `:<port>`. -/
def port_str (c : ImageCharts) : Bytes :=
  if (c.config.protocol = ascii "https" ∧ c.config.port = 443) ∨
     (c.config.protocol = ascii "http" ∧ c.config.port = 80) then []
  else ascii ":" ++ ascii (Nat.repr c.config.port)

/-- Everything before the query string: `<protocol>://<host><port><path>?`. -/
def urlPrefix (c : ImageCharts) : Bytes :=
  c.config.protocol ++ ascii "://" ++ c.config.host ++ port_str c ++ c.config.pathname ++ ascii "?"

/-- `ImageCharts::to_url`. -/
def to_url (c : ImageCharts) : Bytes := urlPrefix c ++ signedQuery c

/-- A builder obtained from a configuration by a chain of setter calls,
one `clone_with` per listed key/value pair. -/
def buildFrom (cfg : ImageChartsConfig) (ps : List (Bytes × Bytes)) : ImageCharts :=
  ps.foldl (fun b p => clone_with b p.1 p.2) (with_config cfg)

/-- `HmacSha256::new_from_slice` with its error channel made explicit.
`Hmac<Sha256>` accepts a key of any length (long keys are hashed, short
ones zero-padded), so the crate's `Result` is always `Ok`; the Rust source
unwraps it with `.expect("HMAC can take key of any size")`. -/
def hmac_new_from_slice (key : Bytes) : Except Bytes Bytes :=
  Except.ok (hmacKeyBlock key)

/-- `ImageCharts::sign` with the potential `expect` panic modelled as an
`Except.error`. -/
def signChecked (data secret : Bytes) : Except Bytes Bytes :=
  match hmac_new_from_slice secret with
  | Except.ok mac => Except.ok (hexEncode (hmacFinalize mac data))
  | Except.error e => Except.error e

/-- `signedQuery` with the potential panic of `sign` propagated. -/
def signedQueryChecked (c : ImageCharts) : Except Bytes Bytes :=
  let query_string := raw_query_string c.query
  if containsKey c.query (ascii "icac") then
    match c.config.secret with
    | some secret =>
      if secret.isEmpty then Except.ok query_string
      else
        match signChecked query_string secret with
        | Except.ok signature => Except.ok (query_string ++ ascii "&ichm=" ++ signature)
        | Except.error e => Except.error e
    | none => Except.ok query_string
  else Except.ok query_string

/-- `ImageCharts::to_url` with the potential panic propagated: `to_url`
can fail only if the HMAC key construction inside `sign` could. -/
def to_urlChecked (c : ImageCharts) : Except Bytes Bytes :=
  match signedQueryChecked c with
  | Except.ok qs => Except.ok (urlPrefix c ++ qs)
  | Except.error e => Except.error e

end ImageCharts

/-! ### Substring occurrences (to state "exactly one `ichm=`") -/

/-- Number of positions (suffixes) of `l` at which `pat` occurs as a
prefix. -/
def countSub (pat : Bytes) : Bytes → Nat
  | [] => if pat = [] then 1 else 0
  | x :: t => (if pat.isPrefixOf (x :: t) then 1 else 0) + countSub pat t

/-- `pat` occurs nowhere in `l` (decidable form). -/
def noOccB (pat l : Bytes) : Bool := l.tails.all fun s => !(pat.isPrefixOf s)

/-- `pat` occurs nowhere in `l`: no suffix of `l` starts with `pat`. -/
def NoOcc (pat l : Bytes) : Prop := ∀ s, s <:+ l → ¬ (pat <+: s)

/-! ### Error construction (`ImageChartsError`, `parse_error_response`)

The Rust code parses the `x-ic-error-validation` header with
`serde_json::from_str::<Vec<ValidationError>>`; the JSON parser below
models `serde_json` on byte strings: a fuel-indexed recursive-descent
parser for JSON values, then extraction of the `message` string field
from each element of a top-level array of objects. -/

/-- JSON values (number payloads are irrelevant to `ValidationError` and
not retained). -/
inductive Json where
  | jnull : Json
  | jbool : Bool → Json
  | jnum : Json
  | jstr : Bytes → Json
  | jarr : List Json → Json
  | jobj : List (Bytes × Json) → Json

/-- Drop leading JSON whitespace (space, tab, LF, CR). -/
def skipWs : Bytes → Bytes
  | 32 :: r => skipWs r
  | 9 :: r => skipWs r
  | 10 :: r => skipWs r
  | 13 :: r => skipWs r
  | l => l

/-- UTF-8 encoding of a code point (for `\uXXXX` escapes). -/
def utf8Enc (cp : Nat) : Bytes :=
  if cp < 128 then [cp]
  else if cp < 2048 then [192 + cp / 64, 128 + cp % 64]
  else if cp < 65536 then [224 + cp / 4096, 128 + cp / 64 % 64, 128 + cp % 64]
  else [240 + cp / 262144, 128 + cp / 4096 % 64, 128 + cp / 64 % 64, 128 + cp % 64]

/-- Four hex digits. -/
def parseHex4 : Bytes → Option (Nat × Bytes)
  | a :: b :: c :: d :: r =>
    match hexVal a, hexVal b, hexVal c, hexVal d with
    | some x, some y, some z, some w => some (4096 * x + 256 * y + 16 * z + w, r)
    | _, _, _, _ => none
  | _ => none

/-- JSON string body after the opening quote: returns the decoded bytes
and the rest after the closing quote.  Escapes follow `serde_json`:
`\" \\ \/ \b \f \n \r \t \uXXXX`, surrogate pairs combined, lone
surrogates rejected, raw control characters rejected. -/
def parseStr : Nat → Bytes → Option (Bytes × Bytes)
  | 0, _ => none
  | _, [] => none
  | fuel + 1, c :: r =>
    if c = 34 then some ([], r)
    else if c = 92 then
      match r with
      | [] => none
      | e :: r2 =>
        if e = 34 ∨ e = 92 ∨ e = 47 then
          (parseStr fuel r2).map fun p => (e :: p.1, p.2)
        else if e = 98 then (parseStr fuel r2).map fun p => (8 :: p.1, p.2)
        else if e = 102 then (parseStr fuel r2).map fun p => (12 :: p.1, p.2)
        else if e = 110 then (parseStr fuel r2).map fun p => (10 :: p.1, p.2)
        else if e = 114 then (parseStr fuel r2).map fun p => (13 :: p.1, p.2)
        else if e = 116 then (parseStr fuel r2).map fun p => (9 :: p.1, p.2)
        else if e = 117 then
          match parseHex4 r2 with
          | none => none
          | some (cp, r3) =>
            if 55296 ≤ cp ∧ cp ≤ 56319 then
              match r3 with
              | 92 :: 117 :: r4 =>
                match parseHex4 r4 with
                | some (cp2, r5) =>
                  if 56320 ≤ cp2 ∧ cp2 ≤ 57343 then
                    (parseStr fuel r5).map fun p =>
                      (utf8Enc (65536 + (cp - 55296) * 1024 + (cp2 - 56320)) ++ p.1, p.2)
                  else none
                | none => none
              | _ => none
            else if 56320 ≤ cp ∧ cp ≤ 57343 then none
            else (parseStr fuel r3).map fun p => (utf8Enc cp ++ p.1, p.2)
        else none
    else if c < 32 then none
    else (parseStr fuel r).map fun p => (c :: p.1, p.2)

/-- One or more ASCII digits. -/
def parseDigits : Bytes → Option Bytes
  | c :: r => if 48 ≤ c ∧ c ≤ 57 then some ((c :: r).dropWhile fun d => 48 ≤ d && d ≤ 57) else none
  | [] => none

/-- JSON number grammar: `-?(0|[1-9][0-9]*)(\.[0-9]+)?([eE][+-]?[0-9]+)?`.
Only syntactic validity matters. -/
def parseNum (s : Bytes) : Option Bytes := do
  let s1 := match s with
    | 45 :: r => r
    | _ => s
  let s2 ← match s1 with
    | 48 :: r => some r
    | c :: r => if 49 ≤ c ∧ c ≤ 57 then some ((c :: r).dropWhile fun d => 48 ≤ d && d ≤ 57)
                else none
    | [] => none
  let s3 ← match s2 with
    | 46 :: r => parseDigits r
    | _ => some s2
  match s3 with
    | c :: r =>
      if c = 101 ∨ c = 69 then
        match r with
        | 43 :: r2 => parseDigits r2
        | 45 :: r2 => parseDigits r2
        | _ => parseDigits r
      else some s3
    | [] => some s3

mutual

/-- A JSON value (leading whitespace allowed). -/
def parseVal : Nat → Bytes → Option (Json × Bytes)
  | 0, _ => none
  | fuel + 1, s =>
    match skipWs s with
    | [] => none
    | c :: r =>
      if c = 110 then
        if (ascii "ull").isPrefixOf r then some (Json.jnull, r.drop 3) else none
      else if c = 116 then
        if (ascii "rue").isPrefixOf r then some (Json.jbool true, r.drop 3) else none
      else if c = 102 then
        if (ascii "alse").isPrefixOf r then some (Json.jbool false, r.drop 4) else none
      else if c = 34 then
        (parseStr (r.length + 1) r).map fun p => (Json.jstr p.1, p.2)
      else if c = 91 then
        match skipWs r with
        | 93 :: r2 => some (Json.jarr [], r2)
        | _ =>
          match parseElems fuel r with
          | some (xs, r2) => some (Json.jarr xs, r2)
          | none => none
      else if c = 123 then
        match skipWs r with
        | 125 :: r2 => some (Json.jobj [], r2)
        | _ =>
          match parseMembers fuel r with
          | some (kvs, r2) => some (Json.jobj kvs, r2)
          | none => none
      else if c = 45 ∨ (48 ≤ c ∧ c ≤ 57) then
        (parseNum (c :: r)).map fun r2 => (Json.jnum, r2)
      else none

/-- Comma-separated array elements followed by `]`. -/
def parseElems : Nat → Bytes → Option (List Json × Bytes)
  | 0, _ => none
  | fuel + 1, s => do
    let (v, r) ← parseVal fuel s
    match skipWs r with
    | 44 :: r2 =>
      match parseElems fuel r2 with
      | some (xs, r3) => some (v :: xs, r3)
      | none => none
    | 93 :: r2 => some ([v], r2)
    | _ => none

/-- Comma-separated `"key": value` members followed by `}`. -/
def parseMembers : Nat → Bytes → Option (List (Bytes × Json) × Bytes)
  | 0, _ => none
  | fuel + 1, s =>
    match skipWs s with
    | 34 :: r => do
      let (k, r2) ← parseStr (r.length + 1) r
      match skipWs r2 with
      | 58 :: r3 => do
        let (v, r4) ← parseVal fuel r3
        match skipWs r4 with
        | 44 :: r5 =>
          match parseMembers fuel r5 with
          | some (kvs, r6) => some ((k, v) :: kvs, r6)
          | none => none
        | 125 :: r5 => some ([(k, v)], r5)
        | _ => none
      | _ => none
    | _ => none

end

/-- `serde_json::from_str`: parse a complete JSON document (the whole
input must be consumed, trailing whitespace allowed). -/
def parseJson (s : Bytes) : Option Json :=
  match parseVal (2 * s.length + 4) s with
  | some (v, rest) => if skipWs rest = [] then some v else none
  | none => none

/-- `Vec<ValidationError>` deserialization: a JSON array of objects, each
with exactly one `message` member whose value is a string (unknown members
are ignored, as `serde` does by default; a duplicated or missing `message`
member is an error). -/
def validationMessages : Json → Option (List Bytes)
  | Json.jarr xs =>
    xs.mapM fun x =>
      match x with
      | Json.jobj kvs =>
        match kvs.filter (fun kv => kv.1 = ascii "message") with
        | [(_, Json.jstr s)] => some s
        | _ => none
      | _ => none
  | _ => none

/-- `serde_json::from_str::<Vec<ValidationError>>(v).ok()`. -/
def parseValidation (v : Bytes) : Option (List Bytes) :=
  (parseJson v).bind validationMessages

/-- `ImageChartsError` (strings as bytes). -/
structure ImageChartsError where
  message : Bytes
  code : Option Bytes
  status_code : Option Nat
deriving DecidableEq, Repr

/-- `ImageCharts::parse_error_response` from `src/lib.rs`. -/
def parse_error_response (status : Nat) (error_code : Option Bytes)
    (validation_header : Option Bytes) : ImageChartsError :=
  let validation_message :=
    (validation_header.bind fun v => parseValidation v).map fun errors => joinSep (ascii "\n") errors
  let message :=
    match validation_message with
    | some m => m
    | none =>
      match error_code with
      | some c => c
      | none => ascii "HTTP " ++ ascii (Nat.repr status)
  { message := message, code := error_code, status_code := some status }

/-! ### The byte-lexicographic order is a total preorder, antisymmetric -/

theorem bytesLe_refl (a : Bytes) : bytesLe a a = true := by
  induction a with
  | nil => rfl
  | cons x xs ih => simp [bytesLe, ih]

theorem bytesLe_total (a b : Bytes) : bytesLe a b = true ∨ bytesLe b a = true := by
  induction a generalizing b with
  | nil => left; rfl
  | cons x xs ih =>
    cases b with
    | nil => right; rfl
    | cons y ys =>
      rcases Nat.lt_trichotomy x y with h | h | h
      · left; simp [bytesLe, h]
      · subst h
        rcases ih ys with h' | h'
        · left; simp [bytesLe, h']
        · right; simp [bytesLe, h']
      · right; simp [bytesLe, h]

theorem bytesLe_trans (a : Bytes) : ∀ b c, bytesLe a b = true → bytesLe b c = true →
    bytesLe a c = true := by
  induction a with
  | nil => intro b c _ _; rfl
  | cons x xs ih =>
    intro b c hab hbc
    cases b with
    | nil => simp [bytesLe] at hab
    | cons y ys =>
      cases c with
      | nil => simp [bytesLe] at hbc
      | cons z zs =>
        simp only [bytesLe] at hab hbc ⊢
        rcases Nat.lt_trichotomy x y with h1 | h1 | h1
        · rcases Nat.lt_trichotomy y z with h2 | h2 | h2
          · simp [Nat.lt_trans h1 h2]
          · subst h2; simp [h1]
          · rw [if_neg (by omega), if_neg (by omega)] at hbc
            exact absurd hbc (by simp)
        · subst h1
          rcases Nat.lt_trichotomy x z with h2 | h2 | h2
          · simp [h2]
          · subst h2
            rw [if_neg (Nat.lt_irrefl x), if_pos rfl] at hab hbc
            simp only [if_neg (Nat.lt_irrefl x), if_pos rfl]
            exact ih _ _ hab hbc
          · rw [if_neg (by omega), if_neg (by omega)] at hbc
            exact absurd hbc (by simp)
        · rw [if_neg (by omega), if_neg (by omega)] at hab
          exact absurd hab (by simp)

theorem bytesLe_antisymm (a : Bytes) : ∀ b, bytesLe a b = true → bytesLe b a = true →
    a = b := by
  induction a with
  | nil => intro b _ hba; cases b with
    | nil => rfl
    | cons y ys => simp [bytesLe] at hba
  | cons x xs ih =>
    intro b hab hba
    cases b with
    | nil => simp [bytesLe] at hab
    | cons y ys =>
      simp only [bytesLe] at hab hba
      rcases Nat.lt_trichotomy x y with h | h | h
      · rw [if_neg (by omega), if_neg (by omega)] at hba
        exact absurd hba (by simp)
      · subst h
        rw [if_neg (Nat.lt_irrefl x), if_pos rfl] at hab hba
        rw [ih ys hab hba]
      · rw [if_neg (by omega), if_neg (by omega)] at hab
        exact absurd hab (by simp)

instance : IsTotal (Bytes × Bytes) ImageCharts.keyLe :=
  ⟨fun a b => bytesLe_total a.1 b.1⟩

instance : IsTrans (Bytes × Bytes) ImageCharts.keyLe :=
  ⟨fun a b c hab hbc => bytesLe_trans a.1 b.1 c.1 hab hbc⟩

namespace ImageCharts

/-- The output of the sort is a permutation of the parameter list. -/
theorem sortPairs_perm (q : List (Bytes × Bytes)) : List.Perm (sortPairs q) q :=
  List.perm_insertionSort keyLe q

/-- The output of the sort is sorted by key. -/
theorem sortPairs_sorted (q : List (Bytes × Bytes)) : List.Sorted keyLe (sortPairs q) :=
  List.sorted_insertionSort keyLe q

/-- Strict key order: `keyLe` together with distinct keys. -/
def keyStrict (a b : Bytes × Bytes) : Prop := keyLe a b ∧ a.1 ≠ b.1

instance : IsAntisymm (Bytes × Bytes) keyStrict :=
  ⟨fun a b hab hba => absurd (bytesLe_antisymm a.1 b.1 hab.1 hba.1) hab.2⟩

/-- On a parameter list with distinct keys, the sort output is sorted by
*strictly* increasing key. -/
theorem sortPairs_strict_sorted (q : List (Bytes × Bytes))
    (hnd : (q.map Prod.fst).Nodup) : List.Sorted keyStrict (sortPairs q) := by
  have hperm : List.Perm (sortPairs q) q := sortPairs_perm q
  have hnd' : ((sortPairs q).map Prod.fst).Nodup :=
    (List.Perm.nodup_iff (List.Perm.map Prod.fst hperm)).mpr hnd
  have hne : (sortPairs q).Pairwise (fun a b => a.1 ≠ b.1) := by
    have := (List.pairwise_map (l := sortPairs q)).mp hnd'
    exact this
  exact (List.Pairwise.and (sortPairs_sorted q) hne)

/-- Two parameter lists that are permutations of each other with distinct
keys sort to the *same* list. -/
theorem sortPairs_eq_of_perm (q q' : List (Bytes × Bytes)) (hperm : List.Perm q q')
    (hnd : (q.map Prod.fst).Nodup) : sortPairs q = sortPairs q' := by
  have hp : List.Perm (sortPairs q) (sortPairs q') :=
    (sortPairs_perm q).trans (hperm.trans (sortPairs_perm q').symm)
  have hnd' : (q'.map Prod.fst).Nodup :=
    (List.Perm.nodup_iff (List.Perm.map Prod.fst hperm)).mp hnd
  exact List.eq_of_perm_of_sorted hp (sortPairs_strict_sorted q hnd)
    (sortPairs_strict_sorted q' hnd')

theorem containsKey_eq_true_iff (q : List (Bytes × Bytes)) (k : Bytes) :
    containsKey q k = true ↔ k ∈ q.map Prod.fst := by
  simp only [containsKey, List.any_eq_true, decide_eq_true_eq, List.mem_map]

theorem containsKey_eq_false_iff (q : List (Bytes × Bytes)) (k : Bytes) :
    containsKey q k = false ↔ ∀ p ∈ q, p.1 ≠ k := by
  rw [← Bool.not_eq_true, containsKey_eq_true_iff]
  simp only [List.mem_map, not_exists]
  constructor
  · intro h p hp hk; exact h p ⟨hp, hk⟩
  · rintro h p ⟨hp, hk⟩; exact h p hp hk

theorem containsKey_eq_of_perm (q q' : List (Bytes × Bytes)) (hperm : List.Perm q q')
    (k : Bytes) : containsKey q k = containsKey q' k := by
  cases hc : containsKey q' k
  · rw [containsKey_eq_false_iff] at hc ⊢
    intro p hp; exact hc p (hperm.mem_iff.mp hp)
  · rw [containsKey_eq_true_iff] at hc ⊢
    exact (List.Perm.map Prod.fst hperm).mem_iff.mpr hc

/-- A setter chain whose keys are distinct builds exactly its list of
pairs (in chain order) as the parameter list. -/
theorem foldl_insertQ_eq_append (ps : List (Bytes × Bytes)) :
    ∀ acc, ((acc ++ ps).map Prod.fst).Nodup →
      ps.foldl (fun q p => insertQ q p.1 p.2) acc = acc ++ ps := by
  induction ps with
  | nil => intro acc _; simp
  | cons p ps ih =>
    intro acc hnd
    have hmem : p.1 ∉ acc.map Prod.fst := by
      rw [List.map_append, List.nodup_append] at hnd
      intro hin
      exact hnd.2.2 hin (by simp)
    have hc : containsKey acc p.1 = false := by
      rw [containsKey_eq_false_iff]
      intro x hx hk; exact hmem (hk ▸ List.mem_map_of_mem Prod.fst hx)
    have step : insertQ acc p.1 p.2 = acc ++ [p] := by
      simp only [insertQ, hc, Bool.false_eq_true, if_false]
    rw [List.foldl_cons, step, ih (acc ++ [p]) (by simpa using hnd)]
    simp

theorem buildFrom_query (cfg : ImageChartsConfig) (ps : List (Bytes × Bytes))
    (hnd : (ps.map Prod.fst).Nodup) : (buildFrom cfg ps).query = ps := by
  have h : ∀ (b : ImageCharts) (l : List (Bytes × Bytes)),
      (l.foldl (fun c p => clone_with c p.1 p.2) b).query =
        l.foldl (fun q p => insertQ q p.1 p.2) b.query := by
    intro b l
    induction l generalizing b with
    | nil => rfl
    | cons p l ih => simp only [List.foldl_cons]; exact ih (clone_with b p.1 p.2)
  rw [buildFrom, h]
  exact foldl_insertQ_eq_append ps [] (by simpa using hnd)

theorem buildFrom_config (cfg : ImageChartsConfig) (ps : List (Bytes × Bytes)) :
    (buildFrom cfg ps).config = cfg := by
  have h : ∀ (b : ImageCharts) (l : List (Bytes × Bytes)),
      (l.foldl (fun c p => clone_with c p.1 p.2) b).config = b.config := by
    intro b l
    induction l generalizing b with
    | nil => rfl
    | cons p l ih => simp only [List.foldl_cons]; exact ih (clone_with b p.1 p.2)
  exact h (with_config cfg) ps

/-- `to_url` output is unchanged under permutation of a unique-key
parameter list, configuration fixed. -/
theorem to_url_eq_of_perm (cfg : ImageChartsConfig) (q q' : List (Bytes × Bytes))
    (hperm : List.Perm q q') (hnd : (q.map Prod.fst).Nodup) :
    to_url { config := cfg, query := q } = to_url { config := cfg, query := q' } := by
  have hsort : sortPairs q = sortPairs q' := sortPairs_eq_of_perm q q' hperm hnd
  have hqs : raw_query_string q = raw_query_string q' := by
    simp only [raw_query_string, hsort]
  have hck : containsKey q (ascii "icac") = containsKey q' (ascii "icac") :=
    containsKey_eq_of_perm q q' hperm (ascii "icac")
  simp only [to_url, urlPrefix, port_str, signedQuery, hqs, hck]

/-- When `icac` is set and a non-empty secret is configured, the query
string gets the signature suffix. -/
theorem signedQuery_eq_signed (c : ImageCharts) (s : Bytes)
    (hs : c.config.secret = some s) (hne : s ≠ [])
    (hicac : containsKey c.query (ascii "icac") = true) :
    signedQuery c = raw_query_string c.query ++ ascii "&ichm=" ++
      hexEncode (hmacSha256 s (raw_query_string c.query)) := by
  have hie : s.isEmpty = false := by
    cases s with
    | nil => exact absurd rfl hne
    | cons a t => rfl
  simp only [signedQuery, hicac, hs, hie, if_true, Bool.false_eq_true, if_false, sign]

/-- When `icac` is missing, or the secret is absent or empty, the query
string is left unsigned. -/
theorem signedQuery_eq_unsigned (c : ImageCharts)
    (h : containsKey c.query (ascii "icac") = false ∨ c.config.secret = none ∨
      c.config.secret = some []) :
    signedQuery c = raw_query_string c.query := by
  rcases h with h | h | h
  · simp only [signedQuery, h, Bool.false_eq_true, if_false]
  · cases hc : containsKey c.query (ascii "icac") <;>
      simp only [signedQuery, h, hc, Bool.false_eq_true, if_false, if_true]
  · cases hc : containsKey c.query (ascii "icac") <;>
      simp only [signedQuery, h, hc, Bool.false_eq_true, if_false, if_true,
        List.isEmpty_nil]

end ImageCharts

open ImageCharts

/-- C1: the URL carries the `ichm=` signature exactly when the parameter
set contains `icac` and the configured secret is present and non-empty;
the appended value is the lowercase hex HMAC-SHA256, keyed by the secret,
of the sorted-and-encoded query string built before signing. -/
theorem C1_conditional_signing (c : ImageCharts) :
    (∀ s, c.config.secret = some s → s ≠ [] →
      containsKey c.query (ascii "icac") = true →
      to_url c = urlPrefix c ++ raw_query_string c.query ++ ascii "&ichm=" ++
          hexEncode (hmacSha256 s (raw_query_string c.query))
        ∧ to_url c ≠ urlPrefix c ++ raw_query_string c.query)
    ∧ (containsKey c.query (ascii "icac") = false ∨ c.config.secret = none ∨
        c.config.secret = some [] →
      to_url c = urlPrefix c ++ raw_query_string c.query) := by
  constructor
  · intro s hs hne hicac
    have hsq := signedQuery_eq_signed c s hs hne hicac
    constructor
    · simp only [to_url, hsq, List.append_assoc]
    · intro heq
      rw [to_url, hsq] at heq
      have hlen := congrArg List.length heq
      simp only [List.length_append] at hlen
      have : (ascii "&ichm=").length = 6 := rfl
      omega
  · intro h
    simp only [to_url, signedQuery_eq_unsigned c h]

/-- Witness for C1 at the spec's fixture: secret `"plop"`, parameters
`cht=p`, `chd=t:1,2,3`, `icac=test_fixture`. -/
theorem C1_conditional_signing_witness :
    to_url (((with_secret (ascii "plop")).cht (ascii "p")).chd (ascii "t:1,2,3")
        |>.icac (ascii "test_fixture")) =
      urlPrefix (((with_secret (ascii "plop")).cht (ascii "p")).chd (ascii "t:1,2,3")
        |>.icac (ascii "test_fixture")) ++
      raw_query_string (((with_secret (ascii "plop")).cht (ascii "p")).chd (ascii "t:1,2,3")
        |>.icac (ascii "test_fixture")).query ++ ascii "&ichm=" ++
      hexEncode (hmacSha256 (ascii "plop")
        (raw_query_string (((with_secret (ascii "plop")).cht (ascii "p")).chd (ascii "t:1,2,3")
          |>.icac (ascii "test_fixture")).query)) :=
  ((C1_conditional_signing _).1 (ascii "plop") rfl (by decide) (by decide)).1

/-- C2: the emitted parameter names are in strictly increasing
byte-lexicographic order, and two setter chains inserting the same
distinct-key pairs in different orders produce identical URLs. -/
theorem C2_canonical_ordering (cfg : ImageChartsConfig) (ps ps' : List (Bytes × Bytes))
    (hperm : List.Perm ps ps') (hnd : (ps.map Prod.fst).Nodup) :
    ((sortPairs (buildFrom cfg ps).query).map Prod.fst).Pairwise
      (fun a b => bytesLe a b = true ∧ a ≠ b)
    ∧ to_url (buildFrom cfg ps) = to_url (buildFrom cfg ps') := by
  have hnd' : (ps'.map Prod.fst).Nodup := (List.Perm.nodup_iff (hperm.map Prod.fst)).mp hnd
  have e1 : buildFrom cfg ps = { config := cfg, query := ps } := by
    calc buildFrom cfg ps
        = { config := (buildFrom cfg ps).config, query := (buildFrom cfg ps).query } := rfl
      _ = { config := cfg, query := ps } := by
          rw [buildFrom_config cfg ps, buildFrom_query cfg ps hnd]
  have e2 : buildFrom cfg ps' = { config := cfg, query := ps' } := by
    calc buildFrom cfg ps'
        = { config := (buildFrom cfg ps').config, query := (buildFrom cfg ps').query } := rfl
      _ = { config := cfg, query := ps' } := by
          rw [buildFrom_config cfg ps', buildFrom_query cfg ps' hnd']
  constructor
  · rw [e1]
    exact List.pairwise_map.mpr ((sortPairs_strict_sorted ps hnd).imp fun h => ⟨h.1, h.2⟩)
  · rw [e1, e2]
    exact to_url_eq_of_perm cfg ps ps' hperm hnd

/-- Witness for C2: inserting `chs`, `cht`, `chd` in either order. -/
theorem C2_canonical_ordering_witness :
    ((sortPairs (buildFrom ImageChartsConfig.default
        [(ascii "chs", ascii "700x300"), (ascii "cht", ascii "p"),
         (ascii "chd", ascii "t:60,40")]).query).map Prod.fst).Pairwise
      (fun a b => bytesLe a b = true ∧ a ≠ b)
    ∧ to_url (buildFrom ImageChartsConfig.default
        [(ascii "chs", ascii "700x300"), (ascii "cht", ascii "p"),
         (ascii "chd", ascii "t:60,40")]) =
      to_url (buildFrom ImageChartsConfig.default
        [(ascii "chd", ascii "t:60,40"), (ascii "chs", ascii "700x300"),
         (ascii "cht", ascii "p")]) :=
  C2_canonical_ordering ImageChartsConfig.default _ _ (by decide) (by decide)

/-- C4 counterexample: two builders with equal (empty) parameter sets that
agree on secret-presence and on `icac`-presence but differ in the host
yield different URLs, refuting "serialization is a pure function of
(ParameterSet, secret-presence, account-id-presence)". -/
theorem C4_counterexample :
    (with_config ImageChartsConfig.default).query =
      (with_config { ImageChartsConfig.default with host := ascii "example.com" }).query
    ∧ (with_config ImageChartsConfig.default).config.secret.isSome =
      (with_config { ImageChartsConfig.default with
        host := ascii "example.com" }).config.secret.isSome
    ∧ containsKey (with_config ImageChartsConfig.default).query (ascii "icac") =
      containsKey (with_config { ImageChartsConfig.default with
        host := ascii "example.com" }).query (ascii "icac")
    ∧ to_url (with_config ImageChartsConfig.default) ≠
      to_url (with_config { ImageChartsConfig.default with host := ascii "example.com" }) :=
  ⟨rfl, rfl, rfl, by decide⟩

/-- C4 amended: serialization is a pure function of the parameter-set
*mapping* and the full configuration: permutation-equivalent unique-key
parameter lists under an equal configuration give byte-identical URLs. -/
theorem C4_amended_purity (cfg : ImageChartsConfig) (q q' : List (Bytes × Bytes))
    (hperm : List.Perm q q') (hnd : (q.map Prod.fst).Nodup) :
    to_url { config := cfg, query := q } = to_url { config := cfg, query := q' } :=
  to_url_eq_of_perm cfg q q' hperm hnd

/-- Witness for the amended C4. -/
theorem C4_amended_purity_witness :
    to_url { config := ImageChartsConfig.default,
             query := [(ascii "cht", ascii "p"), (ascii "chd", ascii "t:1,2")] } =
    to_url { config := ImageChartsConfig.default,
             query := [(ascii "chd", ascii "t:1,2"), (ascii "cht", ascii "p")] } :=
  C4_amended_purity ImageChartsConfig.default _ _ (by decide) (by decide)

/-- C5: the URL is `<protocol>://<host><port-segment><path>?<query>`, and
the port segment is empty exactly for the default combinations
("https", 443) and ("http", 80), else `:<port>`. -/
theorem C5_port_elision (c : ImageCharts) :
    to_url c = c.config.protocol ++ ascii "://" ++ c.config.host ++ port_str c ++
      c.config.pathname ++ ascii "?" ++ signedQuery c
    ∧ (port_str c = [] ↔
        ((c.config.protocol = ascii "https" ∧ c.config.port = 443) ∨
         (c.config.protocol = ascii "http" ∧ c.config.port = 80)))
    ∧ (¬ ((c.config.protocol = ascii "https" ∧ c.config.port = 443) ∨
          (c.config.protocol = ascii "http" ∧ c.config.port = 80)) →
        port_str c = ascii ":" ++ ascii (Nat.repr c.config.port)) := by
  refine ⟨by simp only [to_url, urlPrefix, List.append_assoc], ?_, ?_⟩
  · constructor
    · intro h
      by_contra hc
      rw [port_str, if_neg hc] at h
      simp [ascii] at h
    · intro h; rw [port_str, if_pos h]
  · intro h; rw [port_str, if_neg h]

/-- Witness for C5 at `(protocol := "https", port := 8080)`. -/
theorem C5_port_elision_witness :
    port_str (with_config { ImageChartsConfig.default with port := 8080 }) =
      ascii ":" ++ ascii (Nat.repr 8080) :=
  (C5_port_elision _).2.2 (by decide)

/-- C9: parameter setting is last-write-wins — setting `k` to `v1` then to
`v2` equals setting `k` to `v2` once — and keys stay unique. -/
theorem C9_last_write_wins (b : ImageCharts) (k v1 v2 : Bytes) :
    clone_with (clone_with b k v1) k v2 = clone_with b k v2
    ∧ ((b.query.map Prod.fst).Nodup →
        ((clone_with b k v2).query.map Prod.fst).Nodup) := by
  have mapfix : ∀ (v : Bytes) (l : List (Bytes × Bytes)), (∀ p ∈ l, p.1 ≠ k) →
      l.map (fun p => if p.1 = k then (k, v) else p) = l := by
    intro v l hl
    induction l with
    | nil => rfl
    | cons p t ih =>
      simp only [List.map_cons, if_neg (hl p (by simp))]
      rw [ih fun x hx => hl x (by simp [hx])]
  constructor
  · have hq : insertQ (insertQ b.query k v1) k v2 = insertQ b.query k v2 := by
      cases hc : containsKey b.query k
      · have hmem : ∀ p ∈ b.query, p.1 ≠ k := (containsKey_eq_false_iff b.query k).mp hc
        have h1 : insertQ b.query k v1 = b.query ++ [(k, v1)] := by
          simp only [insertQ, hc, Bool.false_eq_true, if_false]
        have hc2 : containsKey (b.query ++ [(k, v1)]) k = true := by
          rw [containsKey_eq_true_iff]; simp
        rw [h1, insertQ, if_pos hc2, List.map_append, mapfix v2 b.query hmem]
        simp only [insertQ, hc, Bool.false_eq_true, if_false]
        simp
      · have h1 : insertQ b.query k v1 =
            b.query.map (fun p => if p.1 = k then (k, v1) else p) := by
          simp only [insertQ, hc, if_true]
        have hc2 : containsKey (b.query.map (fun p => if p.1 = k then (k, v1) else p)) k
            = true := by
          rw [containsKey_eq_true_iff] at hc ⊢
          rcases List.mem_map.mp hc with ⟨p, hp, hpk⟩
          refine List.mem_map.mpr ⟨(k, v1), List.mem_map.mpr ⟨p, hp, ?_⟩, rfl⟩
          rw [if_pos hpk]
        rw [h1, insertQ, if_pos hc2, List.map_map, insertQ, if_pos hc]
        exact List.map_congr_left fun p _ => by
          by_cases hpk : p.1 = k
          · simp [Function.comp, hpk]
          · simp [Function.comp, hpk]
    simp only [clone_with, hq]
  · intro hnd
    show ((insertQ b.query k v2).map Prod.fst).Nodup
    cases hc : containsKey b.query k
    · rw [insertQ, hc]
      simp only [Bool.false_eq_true, if_false, List.map_append, List.nodup_append]
      refine ⟨hnd, List.nodup_singleton k, ?_⟩
      intro x hx hk
      have hmem := (containsKey_eq_false_iff b.query k).mp hc
      simp only [List.map_cons, List.map_nil, List.mem_singleton] at hk
      rcases List.mem_map.mp hx with ⟨p, hp, rfl⟩
      exact hmem p hp hk
    · rw [insertQ, if_pos hc]
      have : (b.query.map (fun p => if p.1 = k then (k, v2) else p)).map Prod.fst =
          b.query.map Prod.fst := by
        rw [List.map_map]
        exact List.map_congr_left fun p _ => by
          by_cases hpk : p.1 = k
          · simp [Function.comp, hpk]
          · simp [Function.comp, hpk]
      rw [this]; exact hnd

/-- Witness for C9 on a concrete builder. -/
theorem C9_last_write_wins_witness :
    (clone_with (clone_with new (ascii "chd") (ascii "a")) (ascii "chd") (ascii "b") =
      clone_with new (ascii "chd") (ascii "b"))
    ∧ ((clone_with new (ascii "chd") (ascii "b")).query.map Prod.fst).Nodup :=
  ⟨(C9_last_write_wins new (ascii "chd") (ascii "a") (ascii "b")).1,
   (C9_last_write_wins new (ascii "chd") (ascii "a") (ascii "b")).2 (by decide)⟩

/-- C10: with no parameters the query string is empty but the `?` is still
emitted; with the default configuration the URL is exactly
`https://image-charts.com/chart?`. -/
theorem C10_empty_query (cfg : ImageChartsConfig) :
    to_url (with_config cfg) =
      cfg.protocol ++ ascii "://" ++ cfg.host ++ port_str (with_config cfg) ++
        cfg.pathname ++ ascii "?"
    ∧ to_url new = ascii "https://image-charts.com/chart?" := by
  constructor
  · have h : signedQuery { config := cfg, query := [] } = [] :=
      signedQuery_eq_unsigned { config := cfg, query := [] } (Or.inl rfl)
    simp only [to_url, urlPrefix, with_config, h, List.append_nil, List.append_assoc]
  · decide

/-- A hex digit produced by the uppercase encoder decodes back to its
value. -/
theorem hexVal_hexDigitUpper (n : Nat) (h : n < 16) :
    hexVal (hexDigitUpper n) = some n := by
  interval_cases n <;> decide

/-- The byte of `%` is never unreserved. -/
theorem isUrlUnreserved_ne_37 (b : Nat) (h : isUrlUnreserved b = true) : b ≠ 37 := by
  intro hb; subst hb; exact absurd h (by decide)

/-- Round trip at any sufficient fuel. -/
theorem urldecodeF_urlencode (v : Bytes) : ∀ fuel, (∀ b ∈ v, b < 256) →
    (urlencode v).length ≤ fuel → urldecodeF fuel (urlencode v) = v := by
  induction v with
  | nil =>
    intro fuel _ _
    cases fuel with
    | zero => rfl
    | succ f => rfl
  | cons b t ih =>
    intro fuel hb hfuel
    have hb' : b < 256 := hb b (List.mem_cons_self b t)
    have hbt : ∀ x ∈ t, x < 256 := fun x hx => hb x (List.mem_cons_of_mem b hx)
    by_cases hu : isUrlUnreserved b = true
    · have henc : urlencode (b :: t) = b :: urlencode t := by
        simp only [urlencode, List.flatMap_cons, hu, if_true, List.singleton_append]
      rw [henc] at hfuel ⊢
      cases fuel with
      | zero => simp at hfuel
      | succ f =>
        rw [urldecodeF, if_neg (isUrlUnreserved_ne_37 b hu),
          ih f hbt (by simpa using Nat.le_of_succ_le_succ (by simpa using hfuel))]
    · have henc : urlencode (b :: t) =
          37 :: hexDigitUpper (b / 16) :: hexDigitUpper (b % 16) :: urlencode t := by
        simp only [urlencode, List.flatMap_cons, hu, Bool.false_eq_true, if_false]
        rfl
      rw [henc] at hfuel ⊢
      cases fuel with
      | zero => simp at hfuel
      | succ f =>
        have hdec : decodePct (hexDigitUpper (b / 16) :: hexDigitUpper (b % 16) ::
            urlencode t) = some (b, urlencode t) := by
          simp only [decodePct,
            hexVal_hexDigitUpper (b / 16) (Nat.div_lt_of_lt_mul (by omega)),
            hexVal_hexDigitUpper (b % 16) (Nat.mod_lt b (by omega)),
            Nat.div_add_mod]
        have hlen : (urlencode t).length ≤ f := by
          simp only [List.length_cons] at hfuel
          omega
        rw [urldecodeF, if_pos rfl, hdec]
        show b :: urldecodeF f (urlencode t) = b :: t
        rw [ih f hbt hlen]

/-- Round trip: percent-decoding a percent-encoded value returns the
original bytes. -/
theorem urldecode_urlencode (v : Bytes) (hb : ∀ b ∈ v, b < 256) :
    urldecode (urlencode v) = v :=
  urldecodeF_urlencode v (urlencode v).length hb (Nat.le_refl _)

/-- C6: parameter values are percent-encoded (unreserved bytes —
alphanumerics and `-_.~` — kept verbatim, everything else escaped),
parameter names are emitted unencoded, and a standard percent-decoder
recovers every original value exactly. -/
theorem C6_encoding_round_trip (q : List (Bytes × Bytes))
    (hbytes : ∀ p ∈ q, ∀ b ∈ p.2, b < 256) :
    raw_query_string q =
      joinSep (ascii "&") ((sortPairs q).map fun p => p.1 ++ ascii "=" ++ urlencode p.2)
    ∧ (∀ b, (isUrlUnreserved b = true → urlencode [b] = [b])
        ∧ (isUrlUnreserved b = false →
            urlencode [b] = [37, hexDigitUpper (b / 16), hexDigitUpper (b % 16)]))
    ∧ (∀ p ∈ q, urldecode (urlencode p.2) = p.2) := by
  refine ⟨rfl, ?_, ?_⟩
  · intro b
    constructor
    · intro h; simp [urlencode, h]
    · intro h; simp [urlencode, h]
  · intro p hp
    exact urldecode_urlencode p.2 (hbytes p hp)

/-- Witness for C6 with the spec's example value `t:60,40`. -/
theorem C6_encoding_round_trip_witness :
    urldecode (urlencode (ascii "t:60,40")) = ascii "t:60,40" :=
  (C6_encoding_round_trip [(ascii "chd", ascii "t:60,40")] (by decide)).2.2
    (ascii "chd", ascii "t:60,40") (by simp)

/-- C7: `to_url` never fails or panics: with the `expect` inside `sign`
modelled as an explicit error channel, the checked builder always returns
`Ok` of the same URL, because the HMAC key construction accepts every
secret length. -/
theorem C7_totality (c : ImageCharts) :
    to_urlChecked c = Except.ok (to_url c)
    ∧ ∀ key : Bytes, hmac_new_from_slice key = Except.ok (hmacKeyBlock key) := by
  refine ⟨?_, fun _ => rfl⟩
  have h : signedQueryChecked c = Except.ok (signedQuery c) := by
    rw [signedQueryChecked, signedQuery]
    cases hc : containsKey c.query (ascii "icac")
    · simp
    · cases hs : c.config.secret with
      | none => simp
      | some s =>
        cases s with
        | nil => simp
        | cons a t => simp [signChecked, hmac_new_from_slice, sign, hmacSha256]
  rw [to_urlChecked, h, to_url]

/-! ### Substring-occurrence machinery for the signature-uniqueness claim -/

theorem noOccB_iff (pat l : Bytes) : noOccB pat l = true ↔ NoOcc pat l := by
  simp only [noOccB, List.all_eq_true, Bool.not_eq_true', NoOcc]
  constructor
  · intro h s hs hp
    have hfalse := h s ((List.mem_tails s l).mpr hs)
    exact absurd (List.isPrefixOf_iff_prefix.mpr hp) (by simp [hfalse])
  · intro h s hs
    have := h s ((List.mem_tails s l).mp hs)
    rw [← Bool.not_eq_true, List.isPrefixOf_iff_prefix]
    exact this

theorem noOcc_nil {pat : Bytes} (hpne : pat ≠ []) : NoOcc pat [] := by
  intro s hs hp
  rw [List.suffix_nil.mp hs] at hp
  exact hpne (List.prefix_nil.mp hp)

theorem noOcc_of_not_mem {pat l : Bytes} {a : Nat} (ha : a ∈ pat) (hal : a ∉ l) :
    NoOcc pat l :=
  fun _ hs hp => hal (hs.subset (hp.subset ha))

theorem noOcc_suffix {pat l s' : Bytes} (h : NoOcc pat l) (hs' : s' <:+ l) :
    NoOcc pat s' :=
  fun s hs hp => h s (hs.trans hs') hp

theorem prefix_append_cases {p l₁ l₂ : Bytes} (h : p <+: l₁ ++ l₂) :
    p <+: l₁ ∨ ∃ r, p = l₁ ++ r ∧ r <+: l₂ := by
  induction l₁ generalizing p with
  | nil => exact Or.inr ⟨p, rfl, h⟩
  | cons a l₁ ih =>
    cases p with
    | nil => exact Or.inl List.nil_prefix
    | cons b p' =>
      rw [List.cons_append, List.cons_prefix_cons] at h
      rcases h with ⟨rfl, h'⟩
      rcases ih h' with h1 | ⟨r, rfl, hr⟩
      · exact Or.inl (List.cons_prefix_cons.mpr ⟨rfl, h1⟩)
      · exact Or.inr ⟨r, rfl, hr⟩

theorem suffix_append_cases {s l₁ l₂ : Bytes} (h : s <:+ l₁ ++ l₂) :
    s <:+ l₂ ∨ ∃ t, t <:+ l₁ ∧ t ≠ [] ∧ s = t ++ l₂ := by
  induction l₁ with
  | nil => exact Or.inl h
  | cons a l₁ ih =>
    rw [List.cons_append, List.suffix_cons_iff] at h
    rcases h with rfl | h'
    · exact Or.inr ⟨a :: l₁, List.suffix_refl _, List.cons_ne_nil a l₁, by simp⟩
    · rcases ih h' with h1 | ⟨t, ht, htne, rfl⟩
      · exact Or.inl h1
      · exact Or.inr ⟨t, ht.trans (List.suffix_cons a l₁), htne, rfl⟩

theorem not_prefix_cons_of_not_mem {pat : Bytes} {c : Nat} {X : Bytes}
    (hpne : pat ≠ []) (hc : c ∉ pat) : ¬ pat <+: c :: X := by
  intro hp
  cases pat with
  | nil => exact hpne rfl
  | cons x p' =>
    have hx := (List.cons_prefix_cons.mp hp).1
    exact hc (hx ▸ List.mem_cons_self x p')

/-- No window starting inside `t` (a suffix of `P` on which `pat` never
occurs) and crossing a separator byte `c ∉ pat` can match `pat`. -/
theorem cross_sep {pat : Bytes} {c : Nat} {P m' : Bytes}
    (hc : c ∉ pat) (hP : NoOcc pat P) :
    ∀ t, t <:+ P → ¬ pat <+: (t ++ c :: m') := by
  intro t ht hp
  rcases prefix_append_cases hp with hp1 | ⟨r, hpat, hr⟩
  · exact hP t ht hp1
  · cases r with
    | nil =>
      rw [List.append_nil] at hpat
      exact hP t ht (hpat ▸ List.prefix_refl pat)
    | cons rc r' =>
      have hrc := (List.cons_prefix_cons.mp hr).1
      apply hc
      rw [hpat, hrc]
      exact List.mem_append_right t (List.mem_cons_self c r')

/-- Occurrence-freeness is preserved by joining two occurrence-free
strings with a separator byte that `pat` does not contain. -/
theorem noOcc_append_sep {pat : Bytes} {c : Nat} {l₁ l₂ : Bytes}
    (hpne : pat ≠ []) (hc : c ∉ pat) (h₁ : NoOcc pat l₁) (h₂ : NoOcc pat l₂) :
    NoOcc pat (l₁ ++ c :: l₂) := by
  intro s hs hp
  rcases suffix_append_cases hs with hs2 | ⟨t, ht, htne, rfl⟩
  · rcases List.suffix_cons_iff.mp hs2 with rfl | hs3
    · exact not_prefix_cons_of_not_mem hpne hc hp
    · exact h₂ s hs3 hp
  · exact cross_sep hc h₁ t ht hp

theorem countSub_eq_zero {pat l : Bytes} (hpne : pat ≠ []) (h : NoOcc pat l) :
    countSub pat l = 0 := by
  induction l with
  | nil => simp [countSub, hpne]
  | cons x t ih =>
    rw [countSub]
    have h1 : ¬ pat <+: x :: t := h (x :: t) (List.suffix_refl _)
    rw [if_neg (by rw [List.isPrefixOf_iff_prefix]; exact h1)]
    rw [ih (noOcc_suffix h (List.suffix_cons x t))]

/-- Matches in `P ++ m` that would have to start inside `P` can be
discounted when none exists; counting then reduces to `m`. -/
theorem countSub_append_of_noStart {pat P m : Bytes}
    (hns : ∀ t, t <:+ P → t ≠ [] → ¬ pat <+: (t ++ m)) :
    countSub pat (P ++ m) = countSub pat m := by
  induction P with
  | nil => rw [List.nil_append]
  | cons x P' ih =>
    rw [List.cons_append, countSub]
    have h1 : ¬ pat <+: (x :: P') ++ m :=
      hns (x :: P') (List.suffix_refl _) (List.cons_ne_nil x P')
    rw [List.cons_append] at h1
    rw [if_neg (by rw [List.isPrefixOf_iff_prefix]; exact h1)]
    rw [ih fun t ht htne => hns t (ht.trans (List.suffix_cons x P')) htne]
    exact Nat.zero_add _

theorem hexDigitUpper_ne_61 (n : Nat) : hexDigitUpper n ≠ 61 := by
  unfold hexDigitUpper; split <;> omega

/-- Percent-encoded values never contain a raw `=` byte. -/
theorem not_mem_urlencode_61 (v : Bytes) : (61 : Nat) ∉ urlencode v := by
  intro h
  rcases List.mem_flatMap.mp h with ⟨b, _, hmem⟩
  by_cases hu : isUrlUnreserved b = true
  · rw [if_pos hu] at hmem
    have hb : b = 61 := (List.mem_singleton.mp hmem).symm
    subst hb
    exact absurd hu (by decide)
  · rw [if_neg hu] at hmem
    simp only [List.mem_cons, List.mem_singleton, List.not_mem_nil, or_false] at hmem
    rcases hmem with h1 | h1 | h1
    · omega
    · exact hexDigitUpper_ne_61 _ h1.symm
    · exact hexDigitUpper_ne_61 _ h1.symm

/-- `ichm=` cannot occur inside a single `name=<encoded value>` segment
whose name has no `=` byte and does not end in `ichm`. -/
theorem noOcc_ichm_seg {k v : Bytes} (hk61 : (61 : Nat) ∉ k)
    (hksuf : ¬ (ascii "ichm" <:+ k)) :
    NoOcc (ascii "ichm=") (k ++ 61 :: urlencode v) := by
  intro s hs hp
  rcases suffix_append_cases hs with hs2 | ⟨t, ht, htne, rfl⟩
  · rcases List.suffix_cons_iff.mp hs2 with rfl | hs3
    · rw [show ascii "ichm=" = 105 :: [99, 104, 109, 61] from rfl] at hp
      exact absurd (List.cons_prefix_cons.mp hp).1 (by decide)
    · exact noOcc_of_not_mem (show (61 : Nat) ∈ ascii "ichm=" by decide)
        (not_mem_urlencode_61 v) s hs3 hp
  · rcases prefix_append_cases hp with hp1 | ⟨r, hpat, hr⟩
    · exact hk61 (ht.subset (hp1.subset (show (61 : Nat) ∈ ascii "ichm=" by decide)))
    · cases r with
      | nil =>
        rw [List.append_nil] at hpat
        exact hk61 (ht.subset (hpat ▸ (show (61 : Nat) ∈ ascii "ichm=" by decide)))
      | cons rc r' =>
        have hrc := (List.cons_prefix_cons.mp hr).1
        subst hrc
        rw [show ascii "ichm=" = [105, 99, 104, 109, 61] from rfl] at hpat
        cases t with
        | nil => exact htne rfl
        | cons a t1 =>
          cases t1 with
          | nil => simp at hpat
          | cons b t2 =>
            cases t2 with
            | nil => simp at hpat
            | cons c2 t3 =>
              cases t3 with
              | nil => simp at hpat
              | cons d t4 =>
                cases t4 with
                | nil =>
                  simp only [List.cons_append, List.nil_append, List.cons.injEq] at hpat
                  obtain ⟨ha, hb, hc2, hd, -⟩ := hpat
                  apply hksuf
                  rw [show ascii "ichm" = [105, 99, 104, 109] from rfl, ha, hb, hc2, hd]
                  exact ht
                | cons e t5 =>
                  have hlen := congrArg List.length hpat
                  simp only [List.length_cons, List.length_append, List.length_nil] at hlen
                  omega

/-- `joinSep "&"` preserves occurrence-freeness when the pattern has no
`&` byte. -/
theorem noOcc_joinSep {pat : Bytes} (hpne : pat ≠ []) (hsep : (38 : Nat) ∉ pat)
    (segs : List Bytes) (hsegs : ∀ s ∈ segs, NoOcc pat s) :
    NoOcc pat (joinSep (ascii "&") segs) := by
  induction segs with
  | nil => exact noOcc_nil hpne
  | cons x segs ih =>
    cases segs with
    | nil => exact hsegs x (by simp)
    | cons y ss =>
      have hshape : joinSep (ascii "&") (x :: y :: ss) =
          x ++ 38 :: joinSep (ascii "&") (y :: ss) := by
        rw [joinSep, List.append_assoc]; rfl
      rw [hshape]
      exact noOcc_append_sep hpne hsep (hsegs x (by simp))
        (ih fun s hsm => hsegs s (by simp [hsm]))

/-- `ichm=` does not occur in the pre-signature query string when every
parameter name has no `=` byte and does not end in `ichm`. -/
theorem noOcc_raw {q : List (Bytes × Bytes)}
    (hkeys : ∀ p ∈ q, (61 : Nat) ∉ p.1 ∧ ¬ (ascii "ichm" <:+ p.1)) :
    NoOcc (ascii "ichm=") (raw_query_string q) := by
  rw [raw_query_string]
  apply noOcc_joinSep (by decide) (by decide)
  intro s hsm
  rcases List.mem_map.mp hsm with ⟨p, hp, rfl⟩
  have hpq : p ∈ q := (sortPairs_perm q).mem_iff.mp hp
  have hseg : p.1 ++ ascii "=" ++ urlencode p.2 = p.1 ++ 61 :: urlencode p.2 := by
    rw [List.append_assoc]; rfl
  rw [hseg]
  exact noOcc_ichm_seg (hkeys p hpq).1 (hkeys p hpq).2

theorem length_hexEncode (bs : Bytes) : (hexEncode bs).length = 2 * bs.length := by
  induction bs with
  | nil => rfl
  | cons b t ih =>
    simp only [hexEncode, List.flatMap_cons, List.length_append, List.length_cons,
      List.length_nil, List.length_cons] at ih ⊢
    omega

theorem length_flatMap_bytesOfWordBE (l : List Nat) :
    (l.flatMap bytesOfWordBE).length = 4 * l.length := by
  induction l with
  | nil => rfl
  | cons w t ih =>
    simp only [List.flatMap_cons, List.length_append, List.length_cons] at ih ⊢
    rw [ih]
    simp [bytesOfWordBE]
    omega

theorem length_foldl_compress (blocks : List Bytes) :
    ∀ h : List Nat, h.length = 8 → (blocks.foldl sha256Compress h).length = 8 := by
  induction blocks with
  | nil => intro h hh; exact hh
  | cons b bs ih =>
    intro h _
    exact ih _ (by simp [sha256Compress])

theorem length_sha256 (m : Bytes) : (sha256 m).length = 32 := by
  rw [sha256, length_flatMap_bytesOfWordBE,
    length_foldl_compress (toBlocks (sha256Pad m)) sha256H0 rfl]

/-- Every byte of a SHA-256 digest is an actual byte. -/
theorem sha256_lt_256 (m : Bytes) : ∀ b ∈ sha256 m, b < 256 := by
  intro b hb
  rw [sha256] at hb
  rcases List.mem_flatMap.mp hb with ⟨w, _, hmem⟩
  simp only [bytesOfWordBE, List.mem_cons, List.mem_singleton, List.not_mem_nil,
    or_false] at hmem
  rcases hmem with rfl | rfl | rfl | rfl <;> exact Nat.mod_lt _ (by omega)

/-- Lowercase-hex output bytes are decimal digits or `a`–`f`. -/
theorem hexEncode_chars (bs : Bytes) (hb : ∀ x ∈ bs, x < 256) :
    ∀ b ∈ hexEncode bs, (48 ≤ b ∧ b ≤ 57) ∨ (97 ≤ b ∧ b ≤ 102) := by
  intro b hmem
  rcases List.mem_flatMap.mp hmem with ⟨x, hx, hbx⟩
  have hx' : x < 256 := hb x hx
  simp only [List.mem_cons, List.mem_singleton, List.not_mem_nil, or_false] at hbx
  rcases hbx with rfl | rfl
  · have h16 : x / 16 < 16 := Nat.div_lt_of_lt_mul (by omega)
    unfold hexDigitLower; split <;> omega
  · have h16 : x % 16 < 16 := Nat.mod_lt x (by omega)
    unfold hexDigitLower; split <;> omega

/-- The signed URL tail `&ichm=<hex>` after an occurrence-free head gives
exactly one occurrence of `ichm=`. -/
theorem countSub_signed (A H : Bytes) (hA : NoOcc (ascii "ichm=") A)
    (hH : ∀ b ∈ H, (48 ≤ b ∧ b ≤ 57) ∨ (97 ≤ b ∧ b ≤ 102)) :
    countSub (ascii "ichm=") (A ++ 38 :: (ascii "ichm=" ++ H)) = 1 := by
  have h105H : (105 : Nat) ∉ H := by
    intro h
    rcases hH 105 h with ⟨_, h2⟩ | ⟨_, h2⟩ <;> omega
  rw [countSub_append_of_noStart fun t ht _ => cross_sep (by decide) hA t ht]
  rw [countSub]
  rw [if_neg (by
    rw [List.isPrefixOf_iff_prefix]
    exact not_prefix_cons_of_not_mem (by decide) (by decide))]
  have hshape : ascii "ichm=" ++ H = 105 :: ([99, 104, 109, 61] ++ H) := rfl
  rw [hshape, countSub]
  rw [if_pos (by
    rw [List.isPrefixOf_iff_prefix, ← hshape]
    exact List.prefix_append _ _)]
  rw [countSub_eq_zero (by decide) (noOcc_of_not_mem
    (show (105 : Nat) ∈ ascii "ichm=" by decide) (by
      intro hmem
      rcases List.mem_append.mp hmem with h1 | h1
      · revert h1; decide
      · exact h105H h1))]

/-- No public setter key other than `ichm` itself contains `=` or ends in
`ichm`. -/
theorem publicKeys_facts : ∀ k ∈ publicKeys, k ≠ ascii "ichm" →
    ((61 : Nat) ∉ k ∧ ¬ (ascii "ichm" <:+ k)) := by decide

/-- Every byte of an HMAC-SHA256 digest is an actual byte. -/
theorem hmacSha256_lt_256 (key msg : Bytes) : ∀ b ∈ hmacSha256 key msg, b < 256 :=
  fun b hb => sha256_lt_256 _ b hb

theorem length_hmacSha256 (key msg : Bytes) : (hmacSha256 key msg).length = 32 :=
  length_sha256 _

/-- C3 counterexample: the public API exposes an `ichm` setter
(`src/lib.rs:625`), so a caller *can* insert the reserved signature key
into the parameter set. -/
theorem C3_counterexample :
    containsKey (ImageCharts.ichm new (ascii "x")).query (ascii "ichm") = true := by
  decide

/-- C3 amended: the public `ichm` setter can insert the reserved key; but
whenever the caller has *not* inserted `ichm` (all parameters set through
the other public setters), `icac` is present, the secret is non-empty,
and the part of the URL before the query contains no `ichm=` occurrence
(as with the default configuration), the URL ends in a single signature
`&ichm=<64 lowercase-hex chars>` after all other sorted parameters, and
`ichm=` occurs exactly once in the whole URL. -/
theorem C3_amended_single_signature (c : ImageCharts) (s : Bytes)
    (hs : c.config.secret = some s) (hne : s ≠ [])
    (hicac : containsKey c.query (ascii "icac") = true)
    (hkeys : ∀ p ∈ c.query, p.1 ∈ publicKeys ∧ p.1 ≠ ascii "ichm")
    (hbase : NoOcc (ascii "ichm=") (c.config.protocol ++ ascii "://" ++ c.config.host ++
      port_str c ++ c.config.pathname)) :
    to_url c = urlPrefix c ++ raw_query_string c.query ++ ascii "&ichm=" ++
      hexEncode (hmacSha256 s (raw_query_string c.query))
    ∧ (hexEncode (hmacSha256 s (raw_query_string c.query))).length = 64
    ∧ (∀ b ∈ hexEncode (hmacSha256 s (raw_query_string c.query)),
        (48 ≤ b ∧ b ≤ 57) ∨ (97 ≤ b ∧ b ≤ 102))
    ∧ countSub (ascii "ichm=") (to_url c) = 1 := by
  have hH : ∀ b ∈ hexEncode (hmacSha256 s (raw_query_string c.query)),
      (48 ≤ b ∧ b ≤ 57) ∨ (97 ≤ b ∧ b ≤ 102) :=
    hexEncode_chars _ (hmacSha256_lt_256 s _)
  have hkeys' : ∀ p ∈ c.query, (61 : Nat) ∉ p.1 ∧ ¬ (ascii "ichm" <:+ p.1) :=
    fun p hp => publicKeys_facts p.1 (hkeys p hp).1 (hkeys p hp).2
  have hsq := signedQuery_eq_signed c s hs hne hicac
  refine ⟨?_, ?_, hH, ?_⟩
  · rw [to_url, hsq]
    simp only [List.append_assoc]
  · rw [length_hexEncode, length_hmacSha256]
  · have hurl : to_url c =
        ((c.config.protocol ++ ascii "://" ++ c.config.host ++ port_str c ++
          c.config.pathname) ++ 63 :: raw_query_string c.query) ++
          38 :: (ascii "ichm=" ++ hexEncode (hmacSha256 s (raw_query_string c.query))) := by
      rw [to_url, hsq, urlPrefix]
      rw [show ascii "?" = [63] from rfl, show ascii "&ichm=" = 38 :: ascii "ichm=" from rfl]
      simp only [List.append_assoc, List.cons_append, List.singleton_append, List.nil_append]
    rw [hurl]
    exact countSub_signed _ _
      (noOcc_append_sep (by decide) (by decide) hbase (noOcc_raw hkeys')) hH

/-- Witness for the amended C3: default configuration with secret
`"SECRET"`, parameters `cht=p3`, `icac=ACCOUNT`. -/
theorem C3_amended_single_signature_witness :
    countSub (ascii "ichm=")
      (to_url (((with_secret (ascii "SECRET")).cht (ascii "p3")).icac (ascii "ACCOUNT"))) = 1 :=
  (C3_amended_single_signature
    (((with_secret (ascii "SECRET")).cht (ascii "p3")).icac (ascii "ACCOUNT"))
    (ascii "SECRET") rfl (by decide) (by decide) (by decide)
    ((noOccB_iff _ _).mp (by decide))).2.2.2

/-- C8 counterexample: with the validation header present but not valid
JSON, no parsed validation array exists and the message falls back to
`HTTP <status>` (here with no error-code header), contradicting the
claim's "joined validation messages whenever the header is present". -/
theorem C8_counterexample :
    (¬ ∃ msgs, parseValidation (ascii "nope") = some msgs ∧
      (parse_error_response 422 none (some (ascii "nope"))).message =
        joinSep (ascii "\n") msgs)
    ∧ (parse_error_response 422 none (some (ascii "nope"))).message = ascii "HTTP 422" := by
  constructor
  · rintro ⟨msgs, hm, -⟩
    rw [show parseValidation (ascii "nope") = none from rfl] at hm
    exact Option.noConfusion hm
  · decide

/-- C8 amended: the error message is the newline-join of the `message`
fields when the validation header is present *and parses* as a JSON array
of objects each carrying a `message` string; otherwise the error-code
header; otherwise `HTTP <status>`; the numeric status is always attached.
On the spec's example (status 422, validation
`[{"message":"chs is required"}]`) the message is `chs is required`. -/
theorem C8_amended_error_message (status : Nat) (error_code : Option Bytes)
    (validation_header : Option Bytes) :
    (parse_error_response status error_code validation_header).status_code = some status
    ∧ (parse_error_response status error_code validation_header).message =
        (match validation_header.bind parseValidation with
         | some msgs => joinSep (ascii "\n") msgs
         | none =>
           match error_code with
           | some code => code
           | none => ascii "HTTP " ++ ascii (Nat.repr status))
    ∧ (parse_error_response 422 none
        (some (ascii "[\x7b\"message\":\"chs is required\"\x7d]"))).message =
        ascii "chs is required" := by
  refine ⟨rfl, ?_, by decide⟩
  cases h : validation_header.bind parseValidation with
  | none => simp only [parse_error_response, h, Option.map_none']
  | some msgs => simp only [parse_error_response, h, Option.map_some']

end ImageChartsRust

